import Mathlib

/-!
# Crossover operators of the generic GA (`generic_ga/crossovermethods.hpp`)

A shallow embedding of `CrossoverMethod::alternateNCutPoints` and
`CrossoverMethod::orderBased`.

* A `std::vector<T>` is a `List T`; `std::size_t` counters are `Nat`.
* Every `for (i = 0; i < featureVectorSize; i++)` loop is a function that is
  structurally recursive on the number of iterations still to run and carries
  the loop variables (`i`, `j`, the vectors being built) as arguments.
* Element accesses `v[i]` are checked: the embedding returns `none` when the
  C++ code would index past the end of a vector, `some` otherwise.
* The random mask of `orderBased` is an explicit argument (`true` for a drawn 1).
* `std::sort` is an argument of `orderBased`; `IsStdSort` is its contract.
-/

namespace CrossoverMethod

variable {T : Type}

/-! ## `alternateNCutPoints` -/

/-- The body of the `for` loop of `alternateNCutPoints` (source lines 57-76),
run for `n` more iterations from position `i` with segment counter `j`. -/
def alternateLoop (featuresParent1 featuresParent2 : List T) (cutPoints : List Nat) :
    Nat → Nat → Nat → List T × List T → Option (List T × List T)
  | 0, _, _, children => some children
  | n + 1, i, j, children =>
    let j1 := if j < cutPoints.length ∧ cutPoints[j]? = some i then j + 1 else j
    match featuresParent1[i]?, featuresParent2[i]? with
    | some a, some b =>
      if j1 % 2 = 0 then
        alternateLoop featuresParent1 featuresParent2 cutPoints n (i + 1) j1
          (children.1 ++ [a], children.2 ++ [b])
      else
        alternateLoop featuresParent1 featuresParent2 cutPoints n (i + 1) j1
          (children.1 ++ [b], children.2 ++ [a])
    | _, _ => none

/-- The n-point crossover: `featureVectorSize = featuresParent1.size()` iterations
starting from `i = 0`, `j = 0` and two empty children. -/
def alternateNCutPoints (featuresParent1 featuresParent2 : List T) (cutPoints : List Nat) :
    Option (List T × List T) :=
  alternateLoop featuresParent1 featuresParent2 cutPoints featuresParent1.length 0 0 ([], [])

/-- The value of the segment counter `j` on entry to iteration `i` of the loop of
`alternateNCutPoints` (before the test `i == cutPoints[j]` of that iteration). -/
def segmentCounter (cutPoints : List Nat) : Nat → Nat
  | 0 => 0
  | i + 1 =>
    let j := segmentCounter cutPoints i
    if j < cutPoints.length ∧ cutPoints[j]? = some i then j + 1 else j

/-! ## `orderBased` -/

/-- Modelled from the spec: `GeneticUtils::valueWithIdx<T>` is declared in
`utils/geneticutils.hpp`, which is not among the sources. It is the transient
(value, source-index) record: a gene together with the position that gene occupies
in the other parent. -/
structure valueWithIdx (T : Type) where
  value : T
  index : Nat

/-- Modelled from the spec: `operator<` of `valueWithIdx` (in the missing
`utils/geneticutils.hpp`), the order "defined solely by the index field" that
`std::sort` uses. -/
def valueWithIdx.lt (a b : valueWithIdx T) : Prop := a.index < b.index

instance (a b : valueWithIdx T) : Decidable (valueWithIdx.lt a b) :=
  inferInstanceAs (Decidable (a.index < b.index))

/-- The contract of `std::sort` with `operator<`: the result is a rearrangement of the
input in which no later element is less than an earlier one. The order of elements that
compare equivalent is left open, as `std::sort` is not stable. -/
def IsStdSort (stdSort : List (valueWithIdx T) → List (valueWithIdx T)) : Prop :=
  ∀ l, (stdSort l).Perm l ∧ (stdSort l).Pairwise (fun a b => ¬ valueWithIdx.lt b a)

/-- One `std::sort` that can be run: insertion sort by `index`. -/
def insertionSortByIndex (l : List (valueWithIdx T)) : List (valueWithIdx T) :=
  l.insertionSort (fun a b => a.index ≤ b.index)

/-- The offset `std::find(v.begin(), v.end(), x) - v.begin()`: the first position of `x`
in `v`, and `v.size()` when `x` does not occur. -/
def findOffset [DecidableEq T] (x : T) : List T → Nat
  | [] => 0
  | y :: ys => if y = x then 0 else findOffset x ys + 1

/-- The assignment `v[i] = x`; writing past the end of `v` is an access error. -/
def assignAt (v : List T) (i : Nat) (x : T) : Option (List T) :=
  if i < v.length then some (v.set i x) else none

/-- The first loop of `orderBased` (source lines 96-103): copy the genes at the
true-mask positions, for `n` more iterations from position `i`. -/
def copyFixed (featuresParent1 featuresParent2 : List T) (mask : List Bool) :
    Nat → Nat → List T × List T → Option (List T × List T)
  | 0, _, children => some children
  | n + 1, i, children =>
    match mask[i]? with
    | none => none
    | some true =>
      match featuresParent1[i]?, featuresParent2[i]? with
      | some a, some b =>
        match assignAt children.1 i a, assignAt children.2 i b with
        | some c0, some c1 => copyFixed featuresParent1 featuresParent2 mask n (i + 1) (c0, c1)
        | _, _ => none
      | _, _ => none
    | some false => copyFixed featuresParent1 featuresParent2 mask n (i + 1) children

/-- The second loop of `orderBased` (source lines 111-129): for each false-mask
position, record the gene of each parent with its offset in the other parent. -/
def collectWithIndexes [DecidableEq T] (featuresParent1 featuresParent2 : List T)
    (mask : List Bool) :
    Nat → Nat → List (valueWithIdx T) × List (valueWithIdx T) →
      Option (List (valueWithIdx T) × List (valueWithIdx T))
  | 0, _, fp => some fp
  | n + 1, i, fp =>
    match mask[i]? with
    | none => none
    | some false =>
      match featuresParent1[i]?, featuresParent2[i]? with
      | some a, some b =>
        collectWithIndexes featuresParent1 featuresParent2 mask n (i + 1)
          (fp.1 ++ [⟨a, findOffset a featuresParent2⟩],
           fp.2 ++ [⟨b, findOffset b featuresParent1⟩])
      | _, _ => none
    | some true => collectWithIndexes featuresParent1 featuresParent2 mask n (i + 1) fp

/-- The third loop of `orderBased` (source lines 134-142): walk the false-mask positions
left to right and store the next value of each sorted list, `j` counting the values
already used. -/
def refill (mask : List Bool) (fp1WithIndexes fp2WithIndexes : List (valueWithIdx T)) :
    Nat → Nat → Nat → List T × List T → Option (List T × List T)
  | 0, _, _, children => some children
  | n + 1, i, j, children =>
    match mask[i]? with
    | none => none
    | some false =>
      match fp1WithIndexes[j]?, fp2WithIndexes[j]? with
      | some x, some y =>
        match assignAt children.1 i x.value, assignAt children.2 i y.value with
        | some c0, some c1 => refill mask fp1WithIndexes fp2WithIndexes n (i + 1) (j + 1) (c0, c1)
        | _, _ => none
      | _, _ => none
    | some true => refill mask fp1WithIndexes fp2WithIndexes n (i + 1) j children

/-- The order-based crossover. `stdSort` stands for `std::sort`, `mask` for the random
draws (one per position), and `default` for the value-initialised `T_f()` that fills the
children when they are created. -/
def orderBased [DecidableEq T] [Inhabited T]
    (stdSort : List (valueWithIdx T) → List (valueWithIdx T))
    (featuresParent1 featuresParent2 : List T) (mask : List Bool) :
    Option (List T × List T) :=
  let featureVectorSize := featuresParent1.length
  let children : List T × List T :=
    (List.replicate featureVectorSize default, List.replicate featureVectorSize default)
  match copyFixed featuresParent1 featuresParent2 mask featureVectorSize 0 children with
  | none => none
  | some children =>
    match collectWithIndexes featuresParent1 featuresParent2 mask featureVectorSize 0 ([], []) with
    | none => none
    | some (fp1WithIndexes, fp2WithIndexes) =>
      refill mask (stdSort fp1WithIndexes) (stdSort fp2WithIndexes) featureVectorSize 0 0 children

/-- The genes of `v` at the positions where the mask holds `b`, read left to right:
`genesWhere true` gives the genes at the true-mask positions, `genesWhere false` the
genes at the false-mask positions. -/
def genesWhere (b : Bool) : List Bool → List T → List T
  | m :: ms, x :: xs => if m = b then x :: genesWhere b ms xs else genesWhere b ms xs
  | _, _ => []

/-- The value of the running index `j` on entry to iteration `i` of the third loop of
`orderBased` (before the test `!mask[i]` of that iteration): it starts at 0 and gains one
after each false-mask position. -/
def refillCounter (mask : List Bool) : Nat → Nat
  | 0 => 0
  | i + 1 => if mask[i]? = some false then refillCounter mask i + 1 else refillCounter mask i

/-! ## Proofs: `alternateNCutPoints` -/

theorem alternateLoop_spec (p1 p2 : List T) (cuts : List Nat) :
    ∀ (n i : Nat) (ch : List T × List T),
      i + n ≤ p1.length → i + n ≤ p2.length → ch.1.length = i → ch.2.length = i →
      ∃ o1 o2, alternateLoop p1 p2 cuts n i (segmentCounter cuts i) ch = some (o1, o2)
        ∧ o1.length = i + n ∧ o2.length = i + n
        ∧ (∀ k, k < i → o1[k]? = ch.1[k]? ∧ o2[k]? = ch.2[k]?)
        ∧ (∀ k, i ≤ k → k < i + n →
            (segmentCounter cuts (k + 1) % 2 = 0 → o1[k]? = p1[k]? ∧ o2[k]? = p2[k]?)
            ∧ (segmentCounter cuts (k + 1) % 2 ≠ 0 → o1[k]? = p2[k]? ∧ o2[k]? = p1[k]?)) := by
  intro n
  induction n with
  | zero =>
    intro i ch _ _ h1 h2
    refine ⟨ch.1, ch.2, rfl, by simpa using h1, by simpa using h2, fun k _ => ⟨rfl, rfl⟩, ?_⟩
    intro k hk hk2
    omega
  | succ n ih =>
    intro i ch hp1 hp2 h1 h2
    have hi1 : i < p1.length := by omega
    have hi2 : i < p2.length := by omega
    have hstep : segmentCounter cuts (i + 1)
        = if segmentCounter cuts i < cuts.length ∧ cuts[segmentCounter cuts i]? = some i
          then segmentCounter cuts i + 1 else segmentCounter cuts i := rfl
    by_cases hpar : segmentCounter cuts (i + 1) % 2 = 0
    · obtain ⟨o1, o2, he, hl1, hl2, hpre, hpost⟩ :=
        ih (i + 1) (ch.1 ++ [p1[i]], ch.2 ++ [p2[i]]) (by omega) (by omega)
          (by simp [h1]) (by simp [h2])
      refine ⟨o1, o2, ?_, by omega, by omega, ?_, ?_⟩
      · rw [alternateLoop, List.getElem?_eq_getElem hi1, List.getElem?_eq_getElem hi2]
        simp only [← hstep, hpar, if_true]
        exact he
      · intro k hk
        have := hpre k (by omega)
        simp only [List.getElem?_append_left (show k < ch.1.length by omega),
          List.getElem?_append_left (show k < ch.2.length by omega)] at this
        exact this
      · intro k hk hk2
        by_cases hki : k = i
        · subst hki
          have := hpre k (by omega)
          rw [List.getElem?_append_right (by omega), List.getElem?_append_right (by omega)] at this
          simp only [h1, h2, Nat.sub_self, List.getElem?_cons_zero] at this
          refine ⟨fun _ => ?_, fun hne => absurd hpar hne⟩
          rw [List.getElem?_eq_getElem hi1, List.getElem?_eq_getElem hi2]
          exact this
        · exact hpost k (by omega) (by omega)
    · obtain ⟨o1, o2, he, hl1, hl2, hpre, hpost⟩ :=
        ih (i + 1) (ch.1 ++ [p2[i]], ch.2 ++ [p1[i]]) (by omega) (by omega)
          (by simp [h1]) (by simp [h2])
      refine ⟨o1, o2, ?_, by omega, by omega, ?_, ?_⟩
      · rw [alternateLoop, List.getElem?_eq_getElem hi1, List.getElem?_eq_getElem hi2]
        simp only [← hstep, hpar, if_false]
        exact he
      · intro k hk
        have := hpre k (by omega)
        simp only [List.getElem?_append_left (show k < ch.1.length by omega),
          List.getElem?_append_left (show k < ch.2.length by omega)] at this
        exact this
      · intro k hk hk2
        by_cases hki : k = i
        · subst hki
          have := hpre k (by omega)
          rw [List.getElem?_append_right (by omega), List.getElem?_append_right (by omega)] at this
          simp only [h1, h2, Nat.sub_self, List.getElem?_cons_zero] at this
          refine ⟨fun he0 => absurd he0 hpar, fun _ => ?_⟩
          rw [List.getElem?_eq_getElem hi1, List.getElem?_eq_getElem hi2]
          exact this
        · exact hpost k (by omega) (by omega)

/-- The children of `alternateNCutPoints` on equal-length parents, position by position. -/
theorem alternateNCutPoints_spec (p1 p2 : List T) (cuts : List Nat)
    (hlen : p1.length = p2.length) :
    ∃ o1 o2, alternateNCutPoints p1 p2 cuts = some (o1, o2)
      ∧ o1.length = p1.length ∧ o2.length = p1.length
      ∧ (∀ k, k < p1.length →
          (segmentCounter cuts (k + 1) % 2 = 0 → o1[k]? = p1[k]? ∧ o2[k]? = p2[k]?)
          ∧ (segmentCounter cuts (k + 1) % 2 ≠ 0 → o1[k]? = p2[k]? ∧ o2[k]? = p1[k]?)) := by
  obtain ⟨o1, o2, he, hl1, hl2, -, hpost⟩ :=
    alternateLoop_spec p1 p2 cuts p1.length 0 ([], []) (by omega) (by omega) rfl rfl
  refine ⟨o1, o2, he, by omega, by omega, fun k hk => hpost k (by omega) (by omega)⟩

theorem segmentCounter_nil (i : Nat) : segmentCounter [] i = 0 := by
  induction i with
  | zero => rfl
  | succ i ih => simp [segmentCounter, ih]

theorem ascending_lt_iff_lt_countP (i : Nat) :
    ∀ (l : List Nat), l.Pairwise (· < ·) →
      ∀ m (hm : m < l.length), l[m] < i ↔ m < l.countP (fun c => decide (c < i)) := by
  intro l
  induction l with
  | nil => intro _ m hm; simp at hm
  | cons a t ih =>
    intro hp m hm
    rw [List.pairwise_cons] at hp
    by_cases ha : a < i
    · rw [List.countP_cons_of_pos _ _ (by simpa using ha)]
      cases m with
      | zero => simpa using ha
      | succ m =>
        have := ih hp.2 m (by simpa using hm)
        simp only [List.getElem_cons_succ]
        omega
    · have hz : t.countP (fun c => decide (c < i)) = 0 := by
        rw [List.countP_eq_zero]
        intro c hc
        have := hp.1 c hc
        simp only [decide_eq_true_eq]
        omega
      rw [List.countP_cons_of_neg _ _ (by simpa using ha), hz]
      cases m with
      | zero => simpa using ha
      | succ m =>
        have hm1 : m < t.length := by simpa using hm
        have := hp.1 (t[m]) (List.getElem_mem _)
        simp only [List.getElem_cons_succ]
        omega

/-- On a strictly ascending cut list the segment counter on entry to iteration `i` is the
number of cut points below `i`. -/
theorem segmentCounter_eq_countP (cuts : List Nat) (hasc : cuts.Pairwise (· < ·)) (i : Nat) :
    segmentCounter cuts i = cuts.countP (fun c => decide (c < i)) := by
  induction i with
  | zero => simp [segmentCounter]
  | succ i ih =>
    have h0 := ascending_lt_iff_lt_countP i cuts hasc
    have h1 := ascending_lt_iff_lt_countP (i + 1) cuts hasc
    have hle0 : cuts.countP (fun c => decide (c < i)) ≤ cuts.length := List.countP_le_length _
    have hle1 : cuts.countP (fun c => decide (c < i + 1)) ≤ cuts.length := List.countP_le_length _
    have hasc2 := List.pairwise_iff_getElem.1 hasc
    simp only [segmentCounter, ih]
    generalize cuts.countP (fun c => decide (c < i)) = j at *
    generalize cuts.countP (fun c => decide (c < i + 1)) = j1 at *
    split
    · rename_i hc
      obtain ⟨hj, hcj⟩ := hc
      rw [List.getElem?_eq_getElem hj] at hcj
      have hcj : cuts[j] = i := by simpa using hcj
      have hlt : j < j1 := (h1 j hj).1 (by omega)
      by_contra hne
      have hj2 : j + 1 < cuts.length := by omega
      have h3 := (h1 (j + 1) hj2).2 (by omega)
      have h4 := hasc2 j (j + 1) hj hj2 (by omega)
      omega
    · rename_i hc
      by_contra hne
      rcases Nat.lt_or_gt_of_ne hne with hlt | hlt
      · have hj : j < cuts.length := by omega
        have h3 := (h1 j hj).2 hlt
        have h4 : ¬ cuts[j] < i := fun h => by have := (h0 j hj).1 h; omega
        apply hc
        refine ⟨hj, ?_⟩
        rw [List.getElem?_eq_getElem hj]
        congr 1
        omega
      · have hj : j1 < cuts.length := by omega
        have h3 := (h0 j1 hj).2 hlt
        have h4 := (h1 j1 hj).1 (by omega)
        omega

/-- Claim C2. On equal-length parents and a strictly ascending cut list,
`alternateNCutPoints` returns children that at each position `i` take the genes of their
own parent when the number of cut points `≤ i` is even, and the genes of the other parent
when that number is odd. This holds in particular when every cut point is below the
length of the parents; that bound is not needed. -/
theorem alternateNCutPoints_parity (p1 p2 : List T) (cuts : List Nat)
    (hlen : p1.length = p2.length) (hasc : cuts.Pairwise (· < ·)) :
    ∃ o1 o2, alternateNCutPoints p1 p2 cuts = some (o1, o2)
      ∧ ∀ i, i < p1.length →
        ((cuts.filter (fun c => decide (c ≤ i))).length % 2 = 0 →
            o1[i]? = p1[i]? ∧ o2[i]? = p2[i]?)
        ∧ ((cuts.filter (fun c => decide (c ≤ i))).length % 2 = 1 →
            o1[i]? = p2[i]? ∧ o2[i]? = p1[i]?) := by
  obtain ⟨o1, o2, he, -, -, h⟩ := alternateNCutPoints_spec p1 p2 cuts hlen
  refine ⟨o1, o2, he, fun i hi => ?_⟩
  have hc : segmentCounter cuts (i + 1) = (cuts.filter (fun c => decide (c ≤ i))).length := by
    rw [segmentCounter_eq_countP cuts hasc, List.countP_eq_length_filter]
    congr 2
    funext c
    simp [Nat.lt_succ_iff]
  rw [← hc]
  exact ⟨(h i hi).1, fun h1 => (h i hi).2 (by omega)⟩

/-- The worked example of claim C2: cut points `[1, 2]` on `[A, B, C]` and `[X, Y, Z]`. -/
theorem alternateNCutPoints_parity_witness :
    alternateNCutPoints ['A', 'B', 'C'] ['X', 'Y', 'Z'] [1, 2]
        = some (['A', 'Y', 'C'], ['X', 'B', 'Z'])
    ∧ ∃ o1 o2, alternateNCutPoints ['A', 'B', 'C'] ['X', 'Y', 'Z'] [1, 2] = some (o1, o2)
      ∧ ∀ i, i < 3 →
        (([1, 2].filter (fun c => decide (c ≤ i))).length % 2 = 0 →
            o1[i]? = ['A', 'B', 'C'][i]? ∧ o2[i]? = ['X', 'Y', 'Z'][i]?)
        ∧ (([1, 2].filter (fun c => decide (c ≤ i))).length % 2 = 1 →
            o1[i]? = ['X', 'Y', 'Z'][i]? ∧ o2[i]? = ['A', 'B', 'C'][i]?) :=
  ⟨by decide,
   alternateNCutPoints_parity ['A', 'B', 'C'] ['X', 'Y', 'Z'] [1, 2] rfl (by decide)⟩

/-- Claim C5. On equal-length parents and any cut list, at every position the two
children hold the two parent genes of that position, either straight or exchanged. -/
theorem alternateNCutPoints_complementary (p1 p2 : List T) (cuts : List Nat)
    (hlen : p1.length = p2.length) :
    ∃ o1 o2, alternateNCutPoints p1 p2 cuts = some (o1, o2)
      ∧ ∀ i, i < p1.length →
        (o1[i]? = p1[i]? ∧ o2[i]? = p2[i]?) ∨ (o1[i]? = p2[i]? ∧ o2[i]? = p1[i]?) := by
  obtain ⟨o1, o2, he, -, -, h⟩ := alternateNCutPoints_spec p1 p2 cuts hlen
  refine ⟨o1, o2, he, fun i hi => ?_⟩
  by_cases hpar : segmentCounter cuts (i + 1) % 2 = 0
  · exact Or.inl ((h i hi).1 hpar)
  · exact Or.inr ((h i hi).2 hpar)

theorem alternateNCutPoints_complementary_witness :
    ∃ o1 o2, alternateNCutPoints [1, 2, 3, 4] [5, 6, 7, 8] [3, 1, 1] = some (o1, o2)
      ∧ ∀ i, i < 4 →
        (o1[i]? = [1, 2, 3, 4][i]? ∧ o2[i]? = [5, 6, 7, 8][i]?)
        ∨ (o1[i]? = [5, 6, 7, 8][i]? ∧ o2[i]? = [1, 2, 3, 4][i]?) :=
  alternateNCutPoints_complementary [1, 2, 3, 4] [5, 6, 7, 8] [3, 1, 1] rfl

/-- Claim C6. On equal-length parents and any cut list, `alternateNCutPoints` returns two
children that both have the length of the parents. -/
theorem alternateNCutPoints_length (p1 p2 : List T) (cuts : List Nat)
    (hlen : p1.length = p2.length) :
    ∃ o1 o2, alternateNCutPoints p1 p2 cuts = some (o1, o2)
      ∧ o1.length = p1.length ∧ o2.length = p1.length := by
  obtain ⟨o1, o2, he, h1, h2, -⟩ := alternateNCutPoints_spec p1 p2 cuts hlen
  exact ⟨o1, o2, he, h1, h2⟩

theorem alternateNCutPoints_length_witness :
    ∃ o1 o2, alternateNCutPoints [1, 2, 3, 4] [5, 6, 7, 8] [2, 9, 0] = some (o1, o2)
      ∧ o1.length = 4 ∧ o2.length = 4 :=
  alternateNCutPoints_length [1, 2, 3, 4] [5, 6, 7, 8] [2, 9, 0] rfl

/-- Claim C7. With an empty cut list and equal-length parents, the first child is a copy
of the first parent and the second child a copy of the second parent. -/
theorem alternateNCutPoints_nil (p1 p2 : List T) (hlen : p1.length = p2.length) :
    alternateNCutPoints p1 p2 [] = some (p1, p2) := by
  obtain ⟨o1, o2, he, h1, h2, h⟩ := alternateNCutPoints_spec p1 p2 [] hlen
  have e1 : o1 = p1 := by
    apply List.ext_getElem? 
    intro k
    by_cases hk : k < p1.length
    · exact ((h k hk).1 (by simp [segmentCounter_nil])).1
    · rw [List.getElem?_eq_none (by omega), List.getElem?_eq_none (by omega)]
  have e2 : o2 = p2 := by
    apply List.ext_getElem? 
    intro k
    by_cases hk : k < p1.length
    · exact ((h k hk).1 (by simp [segmentCounter_nil])).2
    · rw [List.getElem?_eq_none (by omega), List.getElem?_eq_none (by omega)]
  rw [he, e1, e2]

/-- The worked example of claim C7. -/
theorem alternateNCutPoints_nil_witness :
    alternateNCutPoints [1, 2, 3] [4, 5, 6] [] = some ([1, 2, 3], [4, 5, 6]) :=
  alternateNCutPoints_nil [1, 2, 3] [4, 5, 6] rfl

/-- One step of the segment counter when the cut point at index `k` does not exceed
the one before it (`c`): the counter stays at most `k`, and once it is `k` the
position has passed `c`. -/
theorem counter_step_bound (cuts : List Nat) (k c : Nat)
    (hc : cuts[k - 1]? = some c) (hck : ∀ a, cuts[k]? = some a → a ≤ c)
    (i j : Nat) (hj : j ≤ k) (hjk : j = k → c < i) :
    (if j < cuts.length ∧ cuts[j]? = some i then j + 1 else j) ≤ k
      ∧ ((if j < cuts.length ∧ cuts[j]? = some i then j + 1 else j) = k → c < i + 1) := by
  split
  · rename_i h
    rcases Nat.lt_or_ge j k with hlt | hge
    · refine ⟨by omega, fun hjk1 => ?_⟩
      have : j = k - 1 := by omega
      rw [this, hc] at h
      have := h.2
      simp only [Option.some.injEq] at this
      omega
    · exfalso
      have hjeq : j = k := by omega
      have hci := hjk hjeq
      rw [hjeq] at h
      have := hck i h.2
      omega
  · exact ⟨hj, fun h => by have := hjk h; omega⟩

theorem segmentCounter_le_of_not_increasing (cuts : List Nat) (k c : Nat) (hk : 0 < k)
    (hc : cuts[k - 1]? = some c) (hck : ∀ a, cuts[k]? = some a → a ≤ c) :
    ∀ i, segmentCounter cuts i ≤ k ∧ (segmentCounter cuts i = k → c < i) := by
  intro i
  induction i with
  | zero => exact ⟨Nat.zero_le _, fun h => by simp only [segmentCounter] at h; omega⟩
  | succ i ih => exact counter_step_bound cuts k c hc hck i _ ih.1 ih.2

theorem alternateLoop_take (p1 p2 : List T) (cuts : List Nat) (k c : Nat)
    (hc : cuts[k - 1]? = some c) (hck : ∀ a, cuts[k]? = some a → a ≤ c) :
    ∀ (n i j : Nat) (ch : List T × List T), j ≤ k → (j = k → c < i) →
      alternateLoop p1 p2 cuts n i j ch = alternateLoop p1 p2 (cuts.take k) n i j ch := by
  intro n
  induction n with
  | zero => intro i j ch _ _; rfl
  | succ n ih =>
    intro i j ch hj hjk
    have hj1 : (if j < cuts.length ∧ cuts[j]? = some i then j + 1 else j)
        = (if j < (cuts.take k).length ∧ (cuts.take k)[j]? = some i then j + 1 else j) := by
      rcases Nat.lt_or_ge j k with hlt | hge
      · have e1 : (cuts.take k)[j]? = cuts[j]? := List.getElem?_take_of_lt hlt
        have e2 : j < (cuts.take k).length ↔ j < cuts.length := by
          simp only [List.length_take]; omega
        simp only [e1, e2]
      · have hjeq : j = k := by omega
        have hci := hjk hjeq
        have e1 : ¬ (j < (cuts.take k).length ∧ (cuts.take k)[j]? = some i) := by
          simp only [List.length_take]; omega
        have e2 : ¬ (j < cuts.length ∧ cuts[j]? = some i) := by
          rintro ⟨-, h⟩
          rw [hjeq] at h
          have := hck i h
          omega
        rw [if_neg e1, if_neg e2]
    have hb := counter_step_bound cuts k c hc hck i j hj hjk
    rw [alternateLoop, alternateLoop]
    simp only [← hj1]
    generalize (if j < cuts.length ∧ cuts[j]? = some i then j + 1 else j) = j1 at hb
    cases p1[i]? <;> cases p2[i]? <;> try rfl
    simp only
    split
    · exact ih _ _ _ hb.1 hb.2
    · exact ih _ _ _ hb.1 hb.2

/-- Claim C10. The segment counter advances by at most one per position. So if the cut
point at index `k > 0` is not greater than the one before it, the counter never passes
`k`, the cut points from index `k` on are never consumed, and on equal-length parents
`alternateNCutPoints` returns the same children as with the cut list cut down to its
first `k` entries. -/
theorem alternateNCutPoints_take_of_not_increasing (p1 p2 : List T) (cuts : List Nat)
    (k : Nat) (hlen : p1.length = p2.length) (hk : 0 < k) (hk2 : k < cuts.length)
    (hle : cuts[k] ≤ cuts[k - 1]) :
    (∀ i, segmentCounter cuts (i + 1) ≤ segmentCounter cuts i + 1)
      ∧ (∀ i, segmentCounter cuts i ≤ k)
      ∧ ∃ o1 o2, alternateNCutPoints p1 p2 cuts = some (o1, o2)
        ∧ alternateNCutPoints p1 p2 (cuts.take k) = some (o1, o2) := by
  have hc : cuts[k - 1]? = some cuts[k - 1] := List.getElem?_eq_getElem (by omega)
  have hck : ∀ a, cuts[k]? = some a → a ≤ cuts[k - 1] := by
    intro a ha
    rw [List.getElem?_eq_getElem hk2] at ha
    simp only [Option.some.injEq] at ha
    omega
  refine ⟨fun i => ?_, fun i =>
    (segmentCounter_le_of_not_increasing cuts k _ hk hc hck i).1, ?_⟩
  · simp only [segmentCounter]
    split <;> omega
  · obtain ⟨o1, o2, he, -⟩ := alternateNCutPoints_spec p1 p2 cuts hlen
    refine ⟨o1, o2, he, ?_⟩
    rw [← he]
    symm
    exact alternateLoop_take p1 p2 cuts k (cuts[k - 1]) hc hck _ 0 0 _ (by omega) (by omega)

theorem alternateNCutPoints_take_of_not_increasing_witness :
    (∀ i, segmentCounter [1, 3, 3, 4] (i + 1) ≤ segmentCounter [1, 3, 3, 4] i + 1)
      ∧ (∀ i, segmentCounter [1, 3, 3, 4] i ≤ 2)
      ∧ ∃ o1 o2, alternateNCutPoints [1, 2, 3, 4, 5] [6, 7, 8, 9, 10] [1, 3, 3, 4]
          = some (o1, o2)
        ∧ alternateNCutPoints [1, 2, 3, 4, 5] [6, 7, 8, 9, 10] ([1, 3, 3, 4].take 2)
          = some (o1, o2) :=
  alternateNCutPoints_take_of_not_increasing [1, 2, 3, 4, 5] [6, 7, 8, 9, 10] [1, 3, 3, 4] 2
    rfl (by decide) (by decide) (by decide)

/-! ## Proofs: the three loops of `orderBased` -/

theorem copyFixed_spec (p1 p2 : List T) (mask : List Bool) (L : Nat)
    (h1 : p1.length = L) (h2 : p2.length = L) (hm : mask.length = L) :
    ∀ (n i : Nat) (ch : List T × List T),
      i + n = L → ch.1.length = L → ch.2.length = L →
      ∃ c0 c1, copyFixed p1 p2 mask n i ch = some (c0, c1)
        ∧ c0.length = L ∧ c1.length = L
        ∧ (∀ k, k < i → c0[k]? = ch.1[k]? ∧ c1[k]? = ch.2[k]?)
        ∧ (∀ k, i ≤ k → mask[k]? = some true → c0[k]? = p1[k]? ∧ c1[k]? = p2[k]?) := by
  intro n
  induction n with
  | zero =>
    intro i ch hi hc0 hc1
    refine ⟨ch.1, ch.2, rfl, hc0, hc1, fun k _ => ⟨rfl, rfl⟩, ?_⟩
    intro k hk hmk
    have : k < mask.length := by
      by_contra hcon
      rw [List.getElem?_eq_none (by omega)] at hmk
      exact Option.noConfusion hmk
    omega
  | succ n ih =>
    intro i ch hi hc0 hc1
    have hi1 : i < p1.length := by omega
    have hi2 : i < p2.length := by omega
    have him : i < mask.length := by omega
    rw [copyFixed, List.getElem?_eq_getElem him]
    cases hmi : mask[i] with
    | false =>
      obtain ⟨c0, c1, he, hl0, hl1, hpre, hfix⟩ := ih (i + 1) ch (by omega) hc0 hc1
      refine ⟨c0, c1, he, hl0, hl1, fun k hk => hpre k (by omega), ?_⟩
      intro k hk hmk
      by_cases hki : k = i
      · subst hki
        rw [List.getElem?_eq_getElem him, hmi] at hmk
        exact absurd hmk (by simp)
      · exact hfix k (by omega) hmk
    | true =>
      simp only [List.getElem?_eq_getElem hi1, List.getElem?_eq_getElem hi2, assignAt,
        hc0, hc1, show i < L by omega, if_true]
      obtain ⟨c0, c1, he, hl0, hl1, hpre, hfix⟩ :=
        ih (i + 1) (ch.1.set i p1[i], ch.2.set i p2[i]) (by omega) (by simpa using hc0)
          (by simpa using hc1)
      refine ⟨c0, c1, he, hl0, hl1, ?_, ?_⟩
      · intro k hk
        have := hpre k (by omega)
        simp only [List.getElem?_set_ne (show i ≠ k by omega)] at this
        exact this
      · intro k hk hmk
        by_cases hki : k = i
        · subst hki
          have := hpre k (by omega)
          simp only [List.getElem?_set_self (show k < ch.1.length by omega),
            List.getElem?_set_self (show k < ch.2.length by omega)] at this
          rw [List.getElem?_eq_getElem hi1, List.getElem?_eq_getElem hi2]
          exact this
        · exact hfix k (by omega) hmk

theorem collectWithIndexes_spec [DecidableEq T] (p1 p2 : List T) (mask : List Bool) (L : Nat)
    (h1 : p1.length = L) (h2 : p2.length = L) (hm : mask.length = L) :
    ∀ (n i : Nat) (fp : List (valueWithIdx T) × List (valueWithIdx T)),
      i + n = L →
      collectWithIndexes p1 p2 mask n i fp
        = some (fp.1 ++ (genesWhere false (mask.drop i) (p1.drop i)).map
                    (fun a => ⟨a, findOffset a p2⟩),
                fp.2 ++ (genesWhere false (mask.drop i) (p2.drop i)).map
                    (fun b => ⟨b, findOffset b p1⟩)) := by
  intro n
  induction n with
  | zero =>
    intro i fp hi
    have e1 : mask.drop i = [] := List.drop_eq_nil_of_le (by omega)
    simp [collectWithIndexes, e1, genesWhere]
  | succ n ih =>
    intro i fp hi
    have hi1 : i < p1.length := by omega
    have hi2 : i < p2.length := by omega
    have him : i < mask.length := by omega
    rw [collectWithIndexes, List.getElem?_eq_getElem him,
      List.drop_eq_getElem_cons him, List.drop_eq_getElem_cons hi1,
      List.drop_eq_getElem_cons hi2]
    cases hmi : mask[i] with
    | false =>
      simp only [List.getElem?_eq_getElem hi1, List.getElem?_eq_getElem hi2]
      rw [ih (i + 1) _ (by omega)]
      simp [genesWhere]
    | true =>
      simp only
      rw [ih (i + 1) _ (by omega)]
      simp [genesWhere]

theorem genesWhere_length (b : Bool) :
    ∀ (mask : List Bool) (v : List T), mask.length = v.length →
      (genesWhere b mask v).length = mask.countP (fun m => decide (m = b)) := by
  intro mask
  induction mask with
  | nil => intro v _; simp [genesWhere]
  | cons m ms ih =>
    intro v hv
    cases v with
    | nil => simp at hv
    | cons x xs =>
      have := ih xs (by simpa using hv)
      by_cases hmb : m = b
      · simp [genesWhere, hmb, this]
      · simp [genesWhere, hmb, this]

theorem refill_spec (mask : List Bool) (s1 s2 : List (valueWithIdx T)) (L : Nat)
    (hm : mask.length = L) :
    ∀ (n i j : Nat) (ch : List T × List T),
      i + n = L → ch.1.length = L → ch.2.length = L →
      j + (mask.drop i).countP (fun m => decide (m = false)) = s1.length →
      j + (mask.drop i).countP (fun m => decide (m = false)) = s2.length →
      ∃ o1 o2, refill mask s1 s2 n i j ch = some (o1, o2)
        ∧ o1.length = L ∧ o2.length = L
        ∧ (∀ k, (k < i ∨ mask[k]? = some true) → o1[k]? = ch.1[k]? ∧ o2[k]? = ch.2[k]?)
        ∧ genesWhere false (mask.drop i) (o1.drop i) = (s1.drop j).map valueWithIdx.value
        ∧ genesWhere false (mask.drop i) (o2.drop i) = (s2.drop j).map valueWithIdx.value := by
  intro n
  induction n with
  | zero =>
    intro i j ch hi hc0 hc1 hj1 hj2
    have e1 : mask.drop i = [] := List.drop_eq_nil_of_le (by omega)
    rw [e1] at hj1 hj2
    simp only [List.countP_nil, Nat.add_zero] at hj1 hj2
    refine ⟨ch.1, ch.2, rfl, hc0, hc1, fun k _ => ⟨rfl, rfl⟩, ?_, ?_⟩
    · rw [e1, List.drop_eq_nil_of_le (Nat.le_of_eq hj1.symm)]; simp [genesWhere]
    · rw [e1, List.drop_eq_nil_of_le (Nat.le_of_eq hj2.symm)]; simp [genesWhere]
  | succ n ih =>
    intro i j ch hi hc0 hc1 hj1 hj2
    have him : i < mask.length := by omega
    rw [List.drop_eq_getElem_cons him] at hj1 hj2
    rw [refill, List.getElem?_eq_getElem him, List.drop_eq_getElem_cons him]
    cases hmi : mask[i] with
    | true =>
      rw [hmi] at hj1 hj2
      simp only [List.countP_cons_of_neg, decide_eq_true_eq, Bool.true_eq_false,
        not_false_eq_true] at hj1 hj2
      obtain ⟨o1, o2, he, hl0, hl1, hkeep, hg1, hg2⟩ :=
        ih (i + 1) j ch (by omega) hc0 hc1 (by simpa using hj1) (by simpa using hj2)
      refine ⟨o1, o2, he, hl0, hl1, ?_, ?_, ?_⟩
      · intro k hk
        exact hkeep k (by rcases hk with hk | hk; exact Or.inl (by omega); exact Or.inr hk)
      · rw [List.drop_eq_getElem_cons (show i < o1.length by omega)]
        simpa [genesWhere] using hg1
      · rw [List.drop_eq_getElem_cons (show i < o2.length by omega)]
        simpa [genesWhere] using hg2
    | false =>
      rw [hmi] at hj1 hj2
      simp only [List.countP_cons_of_pos, decide_eq_true_eq] at hj1 hj2
      have hjs1 : j < s1.length := by omega
      have hjs2 : j < s2.length := by omega
      simp only [List.getElem?_eq_getElem hjs1, List.getElem?_eq_getElem hjs2, assignAt,
        hc0, hc1, show i < L by omega, if_true]
      obtain ⟨o1, o2, he, hl0, hl1, hkeep, hg1, hg2⟩ :=
        ih (i + 1) (j + 1) (ch.1.set i s1[j].value, ch.2.set i s2[j].value) (by omega)
          (by simpa using hc0) (by simpa using hc1) (by omega) (by omega)
      have hat := hkeep i (Or.inl (by omega))
      simp only [List.getElem?_set_self (show i < ch.1.length by omega),
        List.getElem?_set_self (show i < ch.2.length by omega)] at hat
      have hio1 : i < o1.length := by omega
      have hio2 : i < o2.length := by omega
      rw [List.getElem?_eq_getElem hio1, List.getElem?_eq_getElem hio2] at hat
      simp only [Option.some.injEq] at hat
      refine ⟨o1, o2, he, hl0, hl1, ?_, ?_, ?_⟩
      · intro k hk
        have hki : i ≠ k := by
          rintro rfl
          rcases hk with hk | hk
          · omega
          · rw [List.getElem?_eq_getElem him, hmi] at hk
            exact absurd hk (by simp)
        have := hkeep k (by rcases hk with hk | hk; exact Or.inl (by omega); exact Or.inr hk)
        simp only [List.getElem?_set_ne hki] at this
        exact this
      · rw [List.drop_eq_getElem_cons hio1, List.drop_eq_getElem_cons hjs1, List.map_cons,
          ← hg1, hat.1]
        simp only [genesWhere, if_true]
      · rw [List.drop_eq_getElem_cons hio2, List.drop_eq_getElem_cons hjs2, List.map_cons,
          ← hg2, hat.2]
        simp only [genesWhere, if_true]

/-! ## Proofs: `orderBased` -/

/-- What `orderBased` returns on equal-length parents: both children have the length of
the parents, hold the parent genes at the true-mask positions, and hold at the
false-mask positions, left to right, the values of the sorted (value, index) lists. -/
theorem orderBased_spec [DecidableEq T] [Inhabited T]
    (stdSort : List (valueWithIdx T) → List (valueWithIdx T)) (hsort : IsStdSort stdSort)
    (p1 p2 : List T) (mask : List Bool)
    (hlen : p1.length = p2.length) (hmask : mask.length = p1.length) :
    ∃ o1 o2, orderBased stdSort p1 p2 mask = some (o1, o2)
      ∧ o1.length = p1.length ∧ o2.length = p1.length
      ∧ (∀ k : Nat, mask[k]? = some true → o1[k]? = p1[k]? ∧ o2[k]? = p2[k]?)
      ∧ genesWhere false mask o1
          = (stdSort ((genesWhere false mask p1).map
              (fun a => ⟨a, findOffset a p2⟩))).map valueWithIdx.value
      ∧ genesWhere false mask o2
          = (stdSort ((genesWhere false mask p2).map
              (fun b => ⟨b, findOffset b p1⟩))).map valueWithIdx.value := by
  obtain ⟨c0, c1, hcopy, hc0, hc1, -, hfix⟩ :=
    copyFixed_spec p1 p2 mask p1.length rfl hlen.symm hmask p1.length 0
      (List.replicate p1.length default, List.replicate p1.length default)
      (by omega) (by simp) (by simp)
  have hcol := collectWithIndexes_spec p1 p2 mask p1.length rfl hlen.symm hmask
    p1.length 0 ([], []) (by omega)
  simp only [List.drop_zero, List.nil_append] at hcol
  have hs1 : 0 + (mask.drop 0).countP (fun m => decide (m = false))
      = (stdSort ((genesWhere false mask p1).map (fun a => ⟨a, findOffset a p2⟩))).length := by
    rw [(hsort _).1.length_eq, List.length_map, genesWhere_length false mask p1 hmask]
    simp
  have hs2 : 0 + (mask.drop 0).countP (fun m => decide (m = false))
      = (stdSort ((genesWhere false mask p2).map (fun b => ⟨b, findOffset b p1⟩))).length := by
    rw [(hsort _).1.length_eq, List.length_map,
      genesWhere_length false mask p2 (by omega)]
    simp
  obtain ⟨o1, o2, hre, hl1, hl2, hkeep, hg1, hg2⟩ :=
    refill_spec mask _ _ p1.length hmask p1.length 0 0 (c0, c1) (by omega) hc0 hc1 hs1 hs2
  simp only [List.drop_zero] at hg1 hg2
  refine ⟨o1, o2, ?_, hl1, hl2, ?_, hg1, hg2⟩
  · simp only [orderBased, hcopy, hcol]
    exact hre
  · intro k hk
    have h1 := hkeep k (Or.inr hk)
    have h2 := hfix k (by omega) hk
    exact ⟨h1.1.trans h2.1, h1.2.trans h2.2⟩

theorem genesWhere_congr (b : Bool) :
    ∀ (mask : List Bool) (l1 l2 : List T), l1.length = mask.length → l2.length = mask.length →
      (∀ k : Nat, mask[k]? = some b → l1[k]? = l2[k]?) →
      genesWhere b mask l1 = genesWhere b mask l2 := by
  intro mask
  induction mask with
  | nil => intro l1 l2 _ _ _; simp [genesWhere]
  | cons m ms ih =>
    intro l1 l2 h1 h2 h
    cases l1 with
    | nil => simp at h1
    | cons x xs =>
      cases l2 with
      | nil => simp at h2
      | cons y ys =>
        have ht : genesWhere b ms xs = genesWhere b ms ys :=
          ih xs ys (by simpa using h1) (by simpa using h2) (fun k hk => by
            have := h (k + 1) (by simpa using hk)
            simpa using this)
        by_cases hmb : m = b
        · have := h 0 (by simp [hmb])
          simp only [List.getElem?_cons_zero, Option.some.injEq] at this
          simp [genesWhere, hmb, ht, this]
        · simp [genesWhere, hmb, ht]

theorem genesWhere_perm :
    ∀ (mask : List Bool) (v : List T), mask.length = v.length →
      v.Perm (genesWhere true mask v ++ genesWhere false mask v) := by
  intro mask
  induction mask with
  | nil =>
    intro v hv
    have : v = [] := List.length_eq_zero.1 (by simpa using hv.symm)
    simp [genesWhere, this]
  | cons m ms ih =>
    intro v hv
    cases v with
    | nil => simp at hv
    | cons x xs =>
      have := ih xs (by simpa using hv)
      cases m with
      | true =>
        simp only [genesWhere, if_true, Bool.true_eq_false, if_false, List.cons_append]
        exact this.cons x
      | false =>
        simp only [genesWhere, if_true, Bool.false_eq_true, if_false]
        exact (this.cons x).trans List.perm_middle.symm

/-- Each child of `orderBased` is a rearrangement of the parent with the same number. -/
theorem orderBased_perm [DecidableEq T] [Inhabited T]
    (stdSort : List (valueWithIdx T) → List (valueWithIdx T)) (hsort : IsStdSort stdSort)
    (p1 p2 : List T) (mask : List Bool)
    (hlen : p1.length = p2.length) (hmask : mask.length = p1.length) :
    ∃ o1 o2, orderBased stdSort p1 p2 mask = some (o1, o2) ∧ o1.Perm p1 ∧ o2.Perm p2 := by
  obtain ⟨o1, o2, he, hl1, hl2, hfix, hg1, hg2⟩ :=
    orderBased_spec stdSort hsort p1 p2 mask hlen hmask
  refine ⟨o1, o2, he, ?_, ?_⟩
  · have ht : genesWhere true mask o1 = genesWhere true mask p1 :=
      genesWhere_congr true mask o1 p1 (by omega) (by omega) (fun k hk => (hfix k hk).1)
    have hf : (genesWhere false mask o1).Perm (genesWhere false mask p1) := by
      rw [hg1]
      have := ((hsort ((genesWhere false mask p1).map
        (fun a => ⟨a, findOffset a p2⟩))).1).map valueWithIdx.value
      simpa [List.map_map, Function.comp_def] using this
    refine (genesWhere_perm mask o1 (by omega)).trans ?_
    rw [ht]
    exact (List.Perm.append_left _ hf).trans (genesWhere_perm mask p1 hmask).symm
  · have ht : genesWhere true mask o2 = genesWhere true mask p2 :=
      genesWhere_congr true mask o2 p2 (by omega) (by omega) (fun k hk => (hfix k hk).2)
    have hf : (genesWhere false mask o2).Perm (genesWhere false mask p2) := by
      rw [hg2]
      have := ((hsort ((genesWhere false mask p2).map
        (fun b => ⟨b, findOffset b p1⟩))).1).map valueWithIdx.value
      simpa [List.map_map, Function.comp_def] using this
    refine (genesWhere_perm mask o2 (by omega)).trans ?_
    rw [ht]
    exact (List.Perm.append_left _ hf).trans (genesWhere_perm mask p2 (by omega)).symm

theorem isStdSort_insertionSortByIndex : IsStdSort (@insertionSortByIndex T) := by
  intro l
  haveI : IsTotal (valueWithIdx T) (fun a b => a.index ≤ b.index) :=
    ⟨fun a b => Nat.le_total _ _⟩
  haveI : IsTrans (valueWithIdx T) (fun a b => a.index ≤ b.index) :=
    ⟨fun a b c hab hbc => Nat.le_trans hab hbc⟩
  refine ⟨List.perm_insertionSort _ l, ?_⟩
  have := List.sorted_insertionSort (fun a b : valueWithIdx T => a.index ≤ b.index) l
  exact List.Pairwise.imp (fun h => by simpa [valueWithIdx.lt] using h) this

/-! ### `findOffset` -/

theorem findOffset_eq_length [DecidableEq T] (x : T) :
    ∀ (l : List T), x ∉ l → findOffset x l = l.length := by
  intro l
  induction l with
  | nil => intro _; rfl
  | cons y ys ih =>
    intro hx
    rw [List.mem_cons, not_or] at hx
    have hyx : ¬ y = x := fun h => hx.1 h.symm
    simp [findOffset, hyx, ih hx.2]

theorem findOffset_lt_length [DecidableEq T] (x : T) :
    ∀ (l : List T), x ∈ l → findOffset x l < l.length := by
  intro l
  induction l with
  | nil => intro hx; simp at hx
  | cons y ys ih =>
    intro hx
    by_cases hyx : y = x
    · simp [findOffset, hyx]
    · have hx2 : x ∈ ys := by
        rcases List.mem_cons.1 hx with h | h
        · exact absurd h.symm hyx
        · exact h
      simp [findOffset, hyx, ih hx2]

theorem findOffset_inj [DecidableEq T] (x y : T) :
    ∀ (l : List T), x ∈ l → y ∈ l → findOffset x l = findOffset y l → x = y := by
  intro l
  induction l with
  | nil => intro hx; simp at hx
  | cons z zs ih =>
    intro hx hy h
    by_cases hzx : z = x
    · by_cases hzy : z = y
      · exact hzx.symm.trans hzy
      · simp only [findOffset, if_pos hzx, if_neg hzy] at h
        omega
    · by_cases hzy : z = y
      · simp only [findOffset, if_neg hzx, if_pos hzy] at h
        omega
      · have hx2 : x ∈ zs := by
          rcases List.mem_cons.1 hx with h1 | h1
          · exact absurd h1.symm hzx
          · exact h1
        have hy2 : y ∈ zs := by
          rcases List.mem_cons.1 hy with h1 | h1
          · exact absurd h1.symm hzy
          · exact h1
        simp only [findOffset, hzx, hzy, if_false, Nat.add_right_cancel_iff] at h
        exact ih hx2 hy2 h

/-- In a vector without repeated genes the offsets of its genes ascend. -/
theorem findOffset_ascending [DecidableEq T] :
    ∀ (l : List T), l.Nodup → (l.map (fun x => findOffset x l)).Pairwise (· < ·) := by
  intro l
  induction l with
  | nil => intro _; simp
  | cons z zs ih =>
    intro hnd
    rw [List.nodup_cons] at hnd
    have hmap : zs.map (fun x => findOffset x (z :: zs))
        = (zs.map (fun x => findOffset x zs)).map (· + 1) := by
      rw [List.map_map]
      apply List.map_congr_left
      intro x hx
      have hzx : ¬ z = x := fun h => hnd.1 (h ▸ hx)
      simp [findOffset, hzx]
    rw [List.map_cons, hmap, List.pairwise_cons]
    refine ⟨?_, ?_⟩
    · intro a ha
      simp only [findOffset, if_true]
      rw [List.mem_map] at ha
      obtain ⟨b, -, rfl⟩ := ha
      omega
    · rw [List.pairwise_map]
      exact List.Pairwise.imp (fun h => by omega) (ih hnd.2)

/-! ### `genesWhere` -/

theorem genesWhere_sublist (b : Bool) :
    ∀ (mask : List Bool) (v : List T), (genesWhere b mask v).Sublist v := by
  intro mask
  induction mask with
  | nil => intro v; simp [genesWhere]
  | cons m ms ih =>
    intro v
    cases v with
    | nil => simp [genesWhere]
    | cons x xs =>
      by_cases hmb : m = b
      · simp only [genesWhere, hmb, if_true]
        exact (ih xs).cons_cons x
      · simp only [genesWhere, hmb, if_false]
        exact (ih xs).cons x

theorem mem_genesWhere (b : Bool) :
    ∀ (mask : List Bool) (v : List T) (j : Nat) (y : T),
      mask[j]? = some b → v[j]? = some y → y ∈ genesWhere b mask v := by
  intro mask
  induction mask with
  | nil => intro v j y hm; simp at hm
  | cons m ms ih =>
    intro v j y hm hv
    cases v with
    | nil => simp at hv
    | cons x xs =>
      cases j with
      | zero =>
        simp only [List.getElem?_cons_zero, Option.some.injEq] at hm hv
        simp [genesWhere, hm, hv]
      | succ j =>
        simp only [List.getElem?_cons_succ] at hm hv
        have := ih xs j y hm hv
        by_cases hmb : m = b
        · simp [genesWhere, hmb, this]
        · simp [genesWhere, hmb, this]

/-- A relation that holds pairwise along `genesWhere b mask v` holds between the genes of
any two positions of `v` where the mask is `b`, the left one first. -/
theorem genesWhere_pairwise_positions (b : Bool) (R : T → T → Prop) :
    ∀ (mask : List Bool) (v : List T), (genesWhere b mask v).Pairwise R →
      ∀ (i j : Nat) (x y : T), i < j → mask[i]? = some b → mask[j]? = some b →
        v[i]? = some x → v[j]? = some y → R x y := by
  intro mask
  induction mask with
  | nil => intro v _ i j x y _ hm; simp at hm
  | cons m ms ih =>
    intro v hp i j x y hij hmi hmj hvi hvj
    cases v with
    | nil => simp at hvi
    | cons x0 xs =>
      cases j with
      | zero => omega
      | succ j =>
        simp only [List.getElem?_cons_succ] at hmj hvj
        cases i with
        | zero =>
          simp only [List.getElem?_cons_zero, Option.some.injEq] at hmi hvi
          simp only [genesWhere, hmi, if_true, List.pairwise_cons] at hp
          rw [← hvi]
          exact hp.1 y (mem_genesWhere b ms xs j y hmj hvj)
        | succ i =>
          simp only [List.getElem?_cons_succ] at hmi hvi
          have hp2 : (genesWhere b ms xs).Pairwise R := by
            by_cases hmb : m = b
            · simp only [genesWhere, hmb, if_true, List.pairwise_cons] at hp
              exact hp.2
            · simpa only [genesWhere, hmb, if_false] using hp
          exact ih xs hp2 i j x y (by omega) hmi hmj hvi hvj

theorem eq_of_map_eq_of_injOn (f : T → Nat) :
    ∀ (l1 l2 : List T), (∀ x ∈ l1, ∀ y ∈ l2, f x = f y → x = y) →
      l1.map f = l2.map f → l1 = l2 := by
  intro l1
  induction l1 with
  | nil =>
    intro l2 _ h
    cases l2 with
    | nil => rfl
    | cons y ys => simp at h
  | cons x xs ih =>
    intro l2 hinj h
    cases l2 with
    | nil => simp at h
    | cons y ys =>
      simp only [List.map_cons, List.cons.injEq] at h
      have hxy : x = y := hinj x (List.mem_cons_self _ _) y (List.mem_cons_self _ _) h.1
      have hrest : xs = ys :=
        ih ys (fun a ha b hb => hinj a (List.mem_cons_of_mem _ ha) b (List.mem_cons_of_mem _ hb))
          h.2
      rw [hxy, hrest]

/-- Two rearrangements of one another that both ascend under a key which tells their
elements apart are the same list. -/
theorem eq_of_perm_of_key_sorted (f : T → Nat) (l1 l2 : List T) (hp : l1.Perm l2)
    (hinj : ∀ x ∈ l1, ∀ y ∈ l1, f x = f y → x = y)
    (h1 : (l1.map f).Pairwise (· ≤ ·)) (h2 : (l2.map f).Pairwise (· ≤ ·)) : l1 = l2 := by
  have hm : l1.map f = l2.map f := List.eq_of_perm_of_sorted (hp.map f) h1 h2
  exact eq_of_map_eq_of_injOn f l1 l2 (fun x hx y hy => hinj x hx y (hp.mem_iff.2 hy)) hm

/-- Every record of the list collected for parent `p` against parent `q` carries the
offset of its value in `q`, also after sorting. -/
theorem index_of_mem_sorted [DecidableEq T]
    (stdSort : List (valueWithIdx T) → List (valueWithIdx T)) (hsort : IsStdSort stdSort)
    (g q : List T) (e : valueWithIdx T)
    (he : e ∈ stdSort (g.map (fun a => ⟨a, findOffset a q⟩))) :
    e.index = findOffset e.value q ∧ e.value ∈ g := by
  have := (hsort _).1.mem_iff.1 he
  rw [List.mem_map] at this
  obtain ⟨a, ha, rfl⟩ := this
  exact ⟨rfl, ha⟩

/-- The values of the sorted list ascend by their offset in the other parent. -/
theorem sorted_values_ascending [DecidableEq T]
    (stdSort : List (valueWithIdx T) → List (valueWithIdx T)) (hsort : IsStdSort stdSort)
    (g q : List T) :
    ((stdSort (g.map (fun a => ⟨a, findOffset a q⟩))).map valueWithIdx.value).Pairwise
      (fun x y => findOffset x q ≤ findOffset y q) := by
  rw [List.pairwise_map]
  refine List.Pairwise.imp_of_mem ?_ (hsort _).2
  intro a b ha hb hab
  rw [← (index_of_mem_sorted stdSort hsort g q a ha).1,
    ← (index_of_mem_sorted stdSort hsort g q b hb).1]
  simpa [valueWithIdx.lt] using hab

/-- For permutation parents `p` and `q`, the sorted values collected from the false-mask
positions of `p` are `q` without the genes `p` holds at its true-mask positions. -/
theorem sorted_free_genes [DecidableEq T]
    (stdSort : List (valueWithIdx T) → List (valueWithIdx T)) (hsort : IsStdSort stdSort)
    (p q : List T) (mask : List Bool) (hp : p.Nodup) (hq : q.Nodup)
    (hsame : ∀ x, x ∈ p ↔ x ∈ q) (hmask : mask.length = p.length) :
    (stdSort ((genesWhere false mask p).map
        (fun a => ⟨a, findOffset a q⟩))).map valueWithIdx.value
      = q.filter (fun x => decide (x ∉ genesWhere true mask p)) := by
  have hsplit := genesWhere_perm mask p hmask
  have hnd : (genesWhere true mask p ++ genesWhere false mask p).Nodup :=
    hsplit.nodup_iff.1 hp
  have hdisj := (List.nodup_append.1 hnd).2.2
  have hvals : ((stdSort ((genesWhere false mask p).map
      (fun a => ⟨a, findOffset a q⟩))).map valueWithIdx.value).Perm
        (genesWhere false mask p) := by
    have := ((hsort ((genesWhere false mask p).map
      (fun a => ⟨a, findOffset a q⟩))).1).map valueWithIdx.value
    simpa [List.map_map, Function.comp_def] using this
  have hfree_sub : ∀ x, x ∈ genesWhere false mask p → x ∈ p :=
    fun x hx => (genesWhere_sublist false mask p).subset hx
  apply eq_of_perm_of_key_sorted (fun x => findOffset x q)
  · refine hvals.trans ?_
    rw [List.perm_ext_iff_of_nodup (List.nodup_append.1 hnd).2.1 (hq.filter _)]
    intro x
    simp only [List.mem_filter, decide_eq_true_eq]
    constructor
    · intro hx
      exact ⟨(hsame x).1 (hfree_sub x hx), fun hfix => hdisj hfix hx⟩
    · rintro ⟨hxq, hxfix⟩
      have hxp : x ∈ p := (hsame x).2 hxq
      rcases List.mem_append.1 (hsplit.mem_iff.1 hxp) with h | h
      · exact absurd h hxfix
      · exact h
  · intro x hx y hy hxy
    have hx2 : x ∈ q := (hsame x).1 (hfree_sub x (hvals.mem_iff.1 hx))
    have hy2 : y ∈ q := (hsame y).1 (hfree_sub y (hvals.mem_iff.1 hy))
    exact findOffset_inj x y q hx2 hy2 hxy
  · exact List.pairwise_map.2 (sorted_values_ascending stdSort hsort _ q)
  · have hsub : List.Sublist
        ((q.filter (fun x => decide (x ∉ genesWhere true mask p))).map
          (fun x => findOffset x q))
        (q.map (fun x => findOffset x q)) :=
      (List.filter_sublist q).map _
    exact ((findOffset_ascending q hq).sublist hsub).imp (fun h => Nat.le_of_lt h)

/-! ### The claims about `orderBased` -/

/-- Claim C1. For equal-length parents without repeated genes that hold the same values,
and any mask, each child of `orderBased` is a valid permutation of those values: it has
no repeated gene and, sorted, equals the sorted parent. -/
theorem orderBased_valid_permutation [LinearOrder T] [DecidableEq T] [Inhabited T]
    (stdSort : List (valueWithIdx T) → List (valueWithIdx T)) (hsort : IsStdSort stdSort)
    (p1 p2 : List T) (mask : List Bool)
    (hlen : p1.length = p2.length) (hmask : mask.length = p1.length)
    (hnd1 : p1.Nodup) (hnd2 : p2.Nodup) (hsame : ∀ x, x ∈ p1 ↔ x ∈ p2) :
    ∃ o1 o2, orderBased stdSort p1 p2 mask = some (o1, o2)
      ∧ o1.Nodup ∧ o2.Nodup
      ∧ o1.insertionSort (· ≤ ·) = p1.insertionSort (· ≤ ·)
      ∧ o2.insertionSort (· ≤ ·) = p2.insertionSort (· ≤ ·)
      ∧ p1.insertionSort (· ≤ ·) = p2.insertionSort (· ≤ ·) := by
  obtain ⟨o1, o2, he, hperm1, hperm2⟩ := orderBased_perm stdSort hsort p1 p2 mask hlen hmask
  have key : ∀ a b : List T, a.Perm b → a.insertionSort (· ≤ ·) = b.insertionSort (· ≤ ·) :=
    fun a b hab =>
      List.eq_of_perm_of_sorted
        (((List.perm_insertionSort _ a).trans hab).trans (List.perm_insertionSort _ b).symm)
        (List.sorted_insertionSort _ a) (List.sorted_insertionSort _ b)
  exact ⟨o1, o2, he, hperm1.nodup_iff.2 hnd1, hperm2.nodup_iff.2 hnd2, key _ _ hperm1,
    key _ _ hperm2, key _ _ ((List.perm_ext_iff_of_nodup hnd1 hnd2).2 hsame)⟩

theorem orderBased_valid_permutation_witness :
    ∃ o1 o2, orderBased insertionSortByIndex [3, 1, 4, 2] [2, 4, 3, 1]
        [false, true, false, false] = some (o1, o2)
      ∧ o1.Nodup ∧ o2.Nodup
      ∧ o1.insertionSort (· ≤ ·) = [3, 1, 4, 2].insertionSort (· ≤ ·)
      ∧ o2.insertionSort (· ≤ ·) = [2, 4, 3, 1].insertionSort (· ≤ ·)
      ∧ [3, 1, 4, 2].insertionSort (· ≤ ·) = [2, 4, 3, 1].insertionSort (· ≤ ·) :=
  orderBased_valid_permutation insertionSortByIndex isStdSort_insertionSortByIndex
    [3, 1, 4, 2] [2, 4, 3, 1] [false, true, false, false] rfl rfl (by decide) (by decide)
    (by intro x; simp only [List.mem_cons, List.mem_singleton, List.not_mem_nil, or_false]; omega)

/-- Claim C3. For permutation parents of equal length and any mask, the genes of the
first child at the false-mask positions, read left to right, are the second parent with
the genes that the first parent holds at its true-mask positions removed, so they keep
the relative order they have in the second parent; and likewise for the second child
with the parents exchanged. -/
theorem orderBased_relative_order [DecidableEq T] [Inhabited T]
    (stdSort : List (valueWithIdx T) → List (valueWithIdx T)) (hsort : IsStdSort stdSort)
    (p1 p2 : List T) (mask : List Bool)
    (hlen : p1.length = p2.length) (hmask : mask.length = p1.length)
    (hnd1 : p1.Nodup) (hnd2 : p2.Nodup) (hsame : ∀ x, x ∈ p1 ↔ x ∈ p2) :
    ∃ o1 o2, orderBased stdSort p1 p2 mask = some (o1, o2)
      ∧ genesWhere false mask o1 = p2.filter (fun x => decide (x ∉ genesWhere true mask p1))
      ∧ genesWhere false mask o2 = p1.filter (fun x => decide (x ∉ genesWhere true mask p2))
      ∧ (genesWhere false mask o1).Sublist p2 ∧ (genesWhere false mask o2).Sublist p1 := by
  obtain ⟨o1, o2, he, -, -, -, hg1, hg2⟩ := orderBased_spec stdSort hsort p1 p2 mask hlen hmask
  have e1 := sorted_free_genes stdSort hsort p1 p2 mask hnd1 hnd2 hsame hmask
  have e2 := sorted_free_genes stdSort hsort p2 p1 mask hnd2 hnd1 (fun x => (hsame x).symm)
    (by omega)
  refine ⟨o1, o2, he, hg1.trans e1, hg2.trans e2, ?_, ?_⟩
  · rw [hg1.trans e1]; exact List.filter_sublist _
  · rw [hg2.trans e2]; exact List.filter_sublist _

/-- The worked example of claim C3: parents `[1, 2, 3, 4]` and `[4, 3, 2, 1]` under the
mask `[true, false, false, true]`. -/
theorem orderBased_relative_order_witness :
    orderBased insertionSortByIndex [1, 2, 3, 4] [4, 3, 2, 1] [true, false, false, true]
        = some ([1, 3, 2, 4], [4, 2, 3, 1])
    ∧ ∃ o1 o2, orderBased insertionSortByIndex [1, 2, 3, 4] [4, 3, 2, 1]
        [true, false, false, true] = some (o1, o2)
      ∧ genesWhere false [true, false, false, true] o1
          = [4, 3, 2, 1].filter
              (fun x => decide (x ∉ genesWhere true [true, false, false, true] [1, 2, 3, 4]))
      ∧ genesWhere false [true, false, false, true] o2
          = [1, 2, 3, 4].filter
              (fun x => decide (x ∉ genesWhere true [true, false, false, true] [4, 3, 2, 1]))
      ∧ (genesWhere false [true, false, false, true] o1).Sublist [4, 3, 2, 1]
      ∧ (genesWhere false [true, false, false, true] o2).Sublist [1, 2, 3, 4] :=
  ⟨by decide,
   orderBased_relative_order insertionSortByIndex isStdSort_insertionSortByIndex
    [1, 2, 3, 4] [4, 3, 2, 1] [true, false, false, true] rfl rfl (by decide) (by decide)
    (by intro x; simp only [List.mem_cons, List.mem_singleton, List.not_mem_nil, or_false]; omega)⟩

/-- Claim C4. For equal-length parents and any mask, at every true-mask position the
children returned by `orderBased` hold the genes of their parents: the refill of the
false-mask positions leaves the true-mask positions as the first loop wrote them. -/
theorem orderBased_fixed_positions [DecidableEq T] [Inhabited T]
    (stdSort : List (valueWithIdx T) → List (valueWithIdx T)) (hsort : IsStdSort stdSort)
    (p1 p2 : List T) (mask : List Bool)
    (hlen : p1.length = p2.length) (hmask : mask.length = p1.length) :
    ∃ o1 o2, orderBased stdSort p1 p2 mask = some (o1, o2)
      ∧ ∀ i : Nat, mask[i]? = some true → o1[i]? = p1[i]? ∧ o2[i]? = p2[i]? := by
  obtain ⟨o1, o2, he, -, -, hfix, -⟩ := orderBased_spec stdSort hsort p1 p2 mask hlen hmask
  exact ⟨o1, o2, he, hfix⟩

theorem orderBased_fixed_positions_witness :
    ∃ o1 o2, orderBased insertionSortByIndex [7, 7, 2, 9] [5, 2, 2, 8]
        [true, false, true, false] = some (o1, o2)
      ∧ ∀ i : Nat, [true, false, true, false][i]? = some true →
          o1[i]? = [7, 7, 2, 9][i]? ∧ o2[i]? = [5, 2, 2, 8][i]? :=
  orderBased_fixed_positions insertionSortByIndex isStdSort_insertionSortByIndex
    [7, 7, 2, 9] [5, 2, 2, 8] [true, false, true, false] rfl rfl

/-- Claim C8. For equal-length parents, permutations of one domain or not, and any mask,
`orderBased` runs through without an access error and returns two children that both
have the length of the parents. -/
theorem orderBased_length [DecidableEq T] [Inhabited T]
    (stdSort : List (valueWithIdx T) → List (valueWithIdx T)) (hsort : IsStdSort stdSort)
    (p1 p2 : List T) (mask : List Bool)
    (hlen : p1.length = p2.length) (hmask : mask.length = p1.length) :
    ∃ o1 o2, orderBased stdSort p1 p2 mask = some (o1, o2)
      ∧ o1.length = p1.length ∧ o2.length = p1.length := by
  obtain ⟨o1, o2, he, h1, h2, -⟩ := orderBased_spec stdSort hsort p1 p2 mask hlen hmask
  exact ⟨o1, o2, he, h1, h2⟩

theorem orderBased_length_witness :
    ∃ o1 o2, orderBased insertionSortByIndex [7, 7, 2, 9] [5, 2, 2, 8]
        [false, false, true, false] = some (o1, o2)
      ∧ o1.length = 4 ∧ o2.length = 4 :=
  orderBased_length insertionSortByIndex isStdSort_insertionSortByIndex
    [7, 7, 2, 9] [5, 2, 2, 8] [false, false, true, false] rfl rfl

/-- Claim C9. For equal-length parents and any mask, permutations or not: the second loop
records every gene of a false-mask position, and a recorded gene that does not occur in
the other parent gets the length of that parent as its index; `orderBased` still returns its
two children; and among the false-mask positions of the first child every gene that
occurs in the second parent stands to the left of every gene that does not (likewise for
the second child and the first parent). -/
theorem orderBased_absent_genes_last [DecidableEq T] [Inhabited T]
    (stdSort : List (valueWithIdx T) → List (valueWithIdx T)) (hsort : IsStdSort stdSort)
    (p1 p2 : List T) (mask : List Bool)
    (hlen : p1.length = p2.length) (hmask : mask.length = p1.length) :
    ∃ fp1 fp2 o1 o2,
      collectWithIndexes p1 p2 mask p1.length 0 ([], []) = some (fp1, fp2)
      ∧ fp1.map valueWithIdx.value = genesWhere false mask p1
      ∧ fp2.map valueWithIdx.value = genesWhere false mask p2
      ∧ (∀ e ∈ fp1, e.value ∉ p2 → e.index = p2.length)
      ∧ (∀ e ∈ fp2, e.value ∉ p1 → e.index = p1.length)
      ∧ orderBased stdSort p1 p2 mask = some (o1, o2)
      ∧ (∀ (a b : Nat) (x y : T), mask[a]? = some false → mask[b]? = some false →
          o1[a]? = some x → o1[b]? = some y → x ∈ p2 → y ∉ p2 → a < b)
      ∧ (∀ (a b : Nat) (x y : T), mask[a]? = some false → mask[b]? = some false →
          o2[a]? = some x → o2[b]? = some y → x ∈ p1 → y ∉ p1 → a < b) := by
  have hcol := collectWithIndexes_spec p1 p2 mask p1.length rfl hlen.symm hmask
    p1.length 0 ([], []) (by omega)
  simp only [List.drop_zero, List.nil_append] at hcol
  obtain ⟨o1, o2, he, -, -, -, hg1, hg2⟩ := orderBased_spec stdSort hsort p1 p2 mask hlen hmask
  have order : ∀ (g q o : List T),
      genesWhere false mask o
        = (stdSort (g.map (fun a => ⟨a, findOffset a q⟩))).map valueWithIdx.value →
      ∀ (a b : Nat) (x y : T), mask[a]? = some false → mask[b]? = some false →
        o[a]? = some x → o[b]? = some y → x ∈ q → y ∉ q → a < b := by
    intro g q o hg a b x y hma hmb hoa hob hx hy
    have hpw : (genesWhere false mask o).Pairwise
        (fun u v => findOffset u q ≤ findOffset v q) := by
      rw [hg]; exact sorted_values_ascending stdSort hsort g q
    have hxl := findOffset_lt_length x q hx
    have hyl := findOffset_eq_length y q hy
    rcases Nat.lt_trichotomy a b with h | h | h
    · exact h
    · exfalso
      rw [h, hob] at hoa
      simp only [Option.some.injEq] at hoa
      exact hy (hoa ▸ hx)
    · exfalso
      have := genesWhere_pairwise_positions false _ mask o hpw b a y x h hmb hma hob hoa
      omega
  refine ⟨_, _, o1, o2, hcol, ?_, ?_, ?_, ?_, he, order _ p2 o1 hg1, order _ p1 o2 hg2⟩
  · simp [List.map_map, Function.comp_def]
  · simp [List.map_map, Function.comp_def]
  · intro e hmem hne
    rw [List.mem_map] at hmem
    obtain ⟨a, -, rfl⟩ := hmem
    exact findOffset_eq_length a p2 hne
  · intro e hmem hne
    rw [List.mem_map] at hmem
    obtain ⟨a, -, rfl⟩ := hmem
    exact findOffset_eq_length a p1 hne

theorem orderBased_absent_genes_last_witness :
    ∃ fp1 fp2 o1 o2,
      collectWithIndexes [9, 1, 3, 8] [3, 1, 5, 6] [false, false, true, false] 4 0 ([], [])
        = some (fp1, fp2)
      ∧ fp1.map valueWithIdx.value = genesWhere false [false, false, true, false] [9, 1, 3, 8]
      ∧ fp2.map valueWithIdx.value = genesWhere false [false, false, true, false] [3, 1, 5, 6]
      ∧ (∀ e ∈ fp1, e.value ∉ [3, 1, 5, 6] → e.index = 4)
      ∧ (∀ e ∈ fp2, e.value ∉ [9, 1, 3, 8] → e.index = 4)
      ∧ orderBased insertionSortByIndex [9, 1, 3, 8] [3, 1, 5, 6] [false, false, true, false]
          = some (o1, o2)
      ∧ (∀ (a b : Nat) (x y : Nat), [false, false, true, false][a]? = some false →
          [false, false, true, false][b]? = some false →
          o1[a]? = some x → o1[b]? = some y → x ∈ [3, 1, 5, 6] → y ∉ [3, 1, 5, 6] → a < b)
      ∧ (∀ (a b : Nat) (x y : Nat), [false, false, true, false][a]? = some false →
          [false, false, true, false][b]? = some false →
          o2[a]? = some x → o2[b]? = some y → x ∈ [9, 1, 3, 8] → y ∉ [9, 1, 3, 8] → a < b) :=
  orderBased_absent_genes_last insertionSortByIndex isStdSort_insertionSortByIndex
    [9, 1, 3, 8] [3, 1, 5, 6] [false, false, true, false] rfl rfl

/-! ### Further properties of `alternateNCutPoints` -/

/-- Claim C15. For a fixed cut list `alternateNCutPoints` undoes itself: crossing the two
children of equal-length parents again with the same cut list returns the parents. -/
theorem alternateNCutPoints_involution (p1 p2 : List T) (cuts : List Nat)
    (hlen : p1.length = p2.length) :
    ∃ o1 o2, alternateNCutPoints p1 p2 cuts = some (o1, o2)
      ∧ alternateNCutPoints o1 o2 cuts = some (p1, p2) := by
  obtain ⟨o1, o2, he, hl1, hl2, h⟩ := alternateNCutPoints_spec p1 p2 cuts hlen
  obtain ⟨r1, r2, hr, hr1, hr2, h2⟩ := alternateNCutPoints_spec o1 o2 cuts (by omega)
  refine ⟨o1, o2, he, ?_⟩
  have e1 : r1 = p1 := by
    apply List.ext_getElem?
    intro k
    by_cases hk : k < p1.length
    · by_cases hpar : segmentCounter cuts (k + 1) % 2 = 0
      · exact ((h2 k (by omega)).1 hpar).1.trans ((h k hk).1 hpar).1
      · exact ((h2 k (by omega)).2 hpar).1.trans ((h k hk).2 hpar).2
    · rw [List.getElem?_eq_none (by omega), List.getElem?_eq_none (by omega)]
  have e2 : r2 = p2 := by
    apply List.ext_getElem?
    intro k
    by_cases hk : k < p1.length
    · by_cases hpar : segmentCounter cuts (k + 1) % 2 = 0
      · exact ((h2 k (by omega)).1 hpar).2.trans ((h k hk).1 hpar).2
      · exact ((h2 k (by omega)).2 hpar).2.trans ((h k hk).2 hpar).1
    · rw [List.getElem?_eq_none (by omega), List.getElem?_eq_none (by omega)]
  rw [hr, e1, e2]

theorem alternateNCutPoints_involution_witness :
    ∃ o1 o2, alternateNCutPoints [1, 2, 3, 4, 5] [6, 7, 8, 9, 10] [1, 3, 3, 0] = some (o1, o2)
      ∧ alternateNCutPoints o1 o2 [1, 3, 3, 0] = some ([1, 2, 3, 4, 5], [6, 7, 8, 9, 10]) :=
  alternateNCutPoints_involution [1, 2, 3, 4, 5] [6, 7, 8, 9, 10] [1, 3, 3, 0] rfl

/-! ### Further properties of `orderBased` -/

/-- Claim C12. Without any permutation precondition (genes may repeat, the parents may
hold different values), for equal-length parents and any mask each child of `orderBased`
is a rearrangement of the parent with the same number: the same genes, each as often. -/
theorem orderBased_same_genes [DecidableEq T] [Inhabited T]
    (stdSort : List (valueWithIdx T) → List (valueWithIdx T)) (hsort : IsStdSort stdSort)
    (p1 p2 : List T) (mask : List Bool)
    (hlen : p1.length = p2.length) (hmask : mask.length = p1.length) :
    ∃ o1 o2, orderBased stdSort p1 p2 mask = some (o1, o2)
      ∧ o1.Perm p1 ∧ o2.Perm p2
      ∧ (∀ x, o1.count x = p1.count x) ∧ (∀ x, o2.count x = p2.count x) := by
  obtain ⟨o1, o2, he, h1, h2⟩ := orderBased_perm stdSort hsort p1 p2 mask hlen hmask
  exact ⟨o1, o2, he, h1, h2, fun x => h1.count_eq x, fun x => h2.count_eq x⟩

theorem orderBased_same_genes_witness :
    ∃ o1 o2, orderBased insertionSortByIndex [7, 7, 2, 9] [5, 2, 2, 8]
        [false, false, true, false] = some (o1, o2)
      ∧ o1.Perm [7, 7, 2, 9] ∧ o2.Perm [5, 2, 2, 8]
      ∧ (∀ x, o1.count x = [7, 7, 2, 9].count x) ∧ (∀ x, o2.count x = [5, 2, 2, 8].count x) :=
  orderBased_same_genes insertionSortByIndex isStdSort_insertionSortByIndex
    [7, 7, 2, 9] [5, 2, 2, 8] [false, false, true, false] rfl rfl

theorem genesWhere_all_false :
    ∀ (mask : List Bool) (v : List T), (∀ m ∈ mask, m = false) → mask.length = v.length →
      genesWhere false mask v = v ∧ genesWhere true mask v = [] := by
  intro mask
  induction mask with
  | nil =>
    intro v _ hv
    have : v = [] := List.length_eq_zero.1 (by simpa using hv.symm)
    simp [genesWhere, this]
  | cons m ms ih =>
    intro v hall hv
    cases v with
    | nil => simp at hv
    | cons x xs =>
      have hm : m = false := hall m (List.mem_cons_self _ _)
      have := ih xs (fun a ha => hall a (List.mem_cons_of_mem _ ha)) (by simpa using hv)
      subst hm
      simp [genesWhere, this.1, this.2]

/-- Claim C13. For permutation parents of equal length, when every mask entry is false
the children of `orderBased` are the parents exchanged. -/
theorem orderBased_all_false [DecidableEq T] [Inhabited T]
    (stdSort : List (valueWithIdx T) → List (valueWithIdx T)) (hsort : IsStdSort stdSort)
    (p1 p2 : List T) (mask : List Bool)
    (hlen : p1.length = p2.length) (hmask : mask.length = p1.length)
    (hnd1 : p1.Nodup) (hnd2 : p2.Nodup) (hsame : ∀ x, x ∈ p1 ↔ x ∈ p2)
    (hall : ∀ m ∈ mask, m = false) :
    orderBased stdSort p1 p2 mask = some (p2, p1) := by
  obtain ⟨o1, o2, he, hl1, hl2, -, hg1, hg2⟩ :=
    orderBased_spec stdSort hsort p1 p2 mask hlen hmask
  have e1 := sorted_free_genes stdSort hsort p1 p2 mask hnd1 hnd2 hsame hmask
  have e2 := sorted_free_genes stdSort hsort p2 p1 mask hnd2 hnd1 (fun x => (hsame x).symm)
    (by omega)
  rw [(genesWhere_all_false mask p1 hall hmask).2] at e1
  rw [(genesWhere_all_false mask p2 hall (by omega)).2] at e2
  rw [(genesWhere_all_false mask o1 hall (by omega)).1, e1] at hg1
  rw [(genesWhere_all_false mask o2 hall (by omega)).1, e2] at hg2
  have f1 : o1 = p2 := by simpa using hg1
  have f2 : o2 = p1 := by simpa using hg2
  rw [he, f1, f2]

theorem orderBased_all_false_witness :
    orderBased insertionSortByIndex [1, 2, 3, 4] [3, 1, 4, 2] [false, false, false, false]
      = some ([3, 1, 4, 2], [1, 2, 3, 4]) :=
  orderBased_all_false insertionSortByIndex isStdSort_insertionSortByIndex
    [1, 2, 3, 4] [3, 1, 4, 2] [false, false, false, false] rfl rfl (by decide) (by decide)
    (by intro x; simp only [List.mem_cons, List.mem_singleton, List.not_mem_nil, or_false]; omega)
    (by decide)

/-- Collected against the parent itself, the sorted values of the false-mask genes of a
vector without repeated genes are those genes in their own order. -/
theorem sorted_free_genes_self [DecidableEq T]
    (stdSort : List (valueWithIdx T) → List (valueWithIdx T)) (hsort : IsStdSort stdSort)
    (p : List T) (mask : List Bool) (hp : p.Nodup) :
    (stdSort ((genesWhere false mask p).map
        (fun a => ⟨a, findOffset a p⟩))).map valueWithIdx.value
      = genesWhere false mask p := by
  have hvals : ((stdSort ((genesWhere false mask p).map
      (fun a => ⟨a, findOffset a p⟩))).map valueWithIdx.value).Perm
        (genesWhere false mask p) := by
    have := ((hsort ((genesWhere false mask p).map
      (fun a => ⟨a, findOffset a p⟩))).1).map valueWithIdx.value
    simpa [List.map_map, Function.comp_def] using this
  have hsub := genesWhere_sublist false mask p
  apply eq_of_perm_of_key_sorted (fun x => findOffset x p) _ _ hvals
  · intro x hx y hy hxy
    exact findOffset_inj x y p (hsub.subset (hvals.mem_iff.1 hx))
      (hsub.subset (hvals.mem_iff.1 hy)) hxy
  · exact List.pairwise_map.2 (sorted_values_ascending stdSort hsort _ p)
  · exact ((findOffset_ascending p hp).sublist (hsub.map _)).imp (fun h => Nat.le_of_lt h)

theorem eq_of_genesWhere_eq :
    ∀ (mask : List Bool) (l1 l2 : List T), l1.length = mask.length → l2.length = mask.length →
      genesWhere true mask l1 = genesWhere true mask l2 →
      genesWhere false mask l1 = genesWhere false mask l2 → l1 = l2 := by
  intro mask
  induction mask with
  | nil =>
    intro l1 l2 h1 h2 _ _
    have e1 : l1 = [] := List.length_eq_zero.1 (by simpa using h1)
    have e2 : l2 = [] := List.length_eq_zero.1 (by simpa using h2)
    rw [e1, e2]
  | cons m ms ih =>
    intro l1 l2 h1 h2 ht hf
    cases l1 with
    | nil => simp at h1
    | cons x xs =>
      cases l2 with
      | nil => simp at h2
      | cons y ys =>
        cases m with
        | true =>
          simp only [genesWhere, if_true, Bool.true_eq_false, if_false, List.cons.injEq] at ht hf
          rw [ht.1, ih xs ys (by simpa using h1) (by simpa using h2) ht.2 hf]
        | false =>
          simp only [genesWhere, if_true, Bool.false_eq_true, if_false, List.cons.injEq] at ht hf
          rw [hf.1, ih xs ys (by simpa using h1) (by simpa using h2) ht hf.2]

/-- Claim C14. Crossing a vector without repeated genes with itself, under any mask of
its length, returns that vector unchanged as both children. -/
theorem orderBased_self [DecidableEq T] [Inhabited T]
    (stdSort : List (valueWithIdx T) → List (valueWithIdx T)) (hsort : IsStdSort stdSort)
    (p : List T) (mask : List Bool) (hmask : mask.length = p.length) (hnd : p.Nodup) :
    orderBased stdSort p p mask = some (p, p) := by
  obtain ⟨o1, o2, he, hl1, hl2, hfix, hg1, hg2⟩ :=
    orderBased_spec stdSort hsort p p mask rfl hmask
  rw [sorted_free_genes_self stdSort hsort p mask hnd] at hg1 hg2
  have f1 : o1 = p :=
    eq_of_genesWhere_eq mask o1 p (by omega) (by omega)
      (genesWhere_congr true mask o1 p (by omega) (by omega) (fun k hk => (hfix k hk).1)) hg1
  have f2 : o2 = p :=
    eq_of_genesWhere_eq mask o2 p (by omega) (by omega)
      (genesWhere_congr true mask o2 p (by omega) (by omega) (fun k hk => (hfix k hk).2)) hg2
  rw [he, f1, f2]

theorem orderBased_self_witness :
    orderBased insertionSortByIndex [3, 1, 2, 7] [3, 1, 2, 7] [true, false, false, true]
      = some ([3, 1, 2, 7], [3, 1, 2, 7]) :=
  orderBased_self insertionSortByIndex isStdSort_insertionSortByIndex
    [3, 1, 2, 7] [true, false, false, true] rfl (by decide)

/-! ### The running index of the third loop -/

theorem refillCounter_succ_of_false (mask : List Bool) (i : Nat) (h : mask[i]? = some false) :
    refillCounter mask (i + 1) = refillCounter mask i + 1 := by
  simp only [refillCounter, h, if_true]

theorem refillCounter_succ_of_true (mask : List Bool) (i : Nat) (h : mask[i]? = some true) :
    refillCounter mask (i + 1) = refillCounter mask i := by
  simp [refillCounter, h]

theorem refillCounter_mono (mask : List Bool) (i : Nat) :
    ∀ k, i ≤ k → refillCounter mask i ≤ refillCounter mask k := by
  intro k
  induction k with
  | zero => intro h; rw [Nat.le_zero.1 h]
  | succ k ih =>
    intro h
    rcases Nat.lt_or_ge i (k + 1) with hlt | hge
    · have h1 := ih (by omega)
      have h2 : refillCounter mask k ≤ refillCounter mask (k + 1) := by
        simp only [refillCounter]
        split <;> omega
      omega
    · have : i = k + 1 := by omega
      rw [this]

theorem refillCounter_eq_countP (mask : List Bool) (i : Nat) :
    refillCounter mask i = (mask.take i).countP (fun m => decide (m = false)) := by
  induction i with
  | zero => simp [refillCounter]
  | succ i ih =>
    rw [List.take_succ, List.countP_append, ← ih]
    cases h : mask[i]? with
    | none => simp [refillCounter, h]
    | some m =>
      cases m with
      | true => simp [refillCounter, h]
      | false => simp [refillCounter, h]

theorem refillCounter_length (mask : List Bool) :
    refillCounter mask mask.length = mask.countP (fun m => decide (m = false)) := by
  rw [refillCounter_eq_countP, List.take_length]

/-- Every value of the running index below its final value is the index on entry to
some false-mask position. -/
theorem refillCounter_surj (mask : List Bool) :
    ∀ (n j : Nat), j < refillCounter mask n →
      ∃ i, i < n ∧ mask[i]? = some false ∧ refillCounter mask i = j := by
  intro n
  induction n with
  | zero => intro j hj; simp [refillCounter] at hj
  | succ n ih =>
    intro j hj
    rcases Nat.lt_or_ge j (refillCounter mask n) with hlt | hge
    · obtain ⟨i, hi, hm, hr⟩ := ih j hlt
      exact ⟨i, by omega, hm, hr⟩
    · by_cases hm : mask[n]? = some false
      · rw [refillCounter_succ_of_false mask n hm] at hj
        exact ⟨n, by omega, hm, by omega⟩
      · exfalso
        simp only [refillCounter, hm, if_false] at hj
        omega

/-- Two false-mask positions are entered with different values of the running index. -/
theorem refillCounter_inj (mask : List Bool) (i k : Nat)
    (hi : mask[i]? = some false) (hk : mask[k]? = some false)
    (h : refillCounter mask i = refillCounter mask k) : i = k := by
  rcases Nat.lt_trichotomy i k with hlt | heq | hgt
  · have h1 := refillCounter_succ_of_false mask i hi
    have h2 := refillCounter_mono mask (i + 1) k (by omega)
    omega
  · exact heq
  · have h1 := refillCounter_succ_of_false mask k hk
    have h2 := refillCounter_mono mask (k + 1) i (by omega)
    omega

/-- The third loop, position by position: it is entered at position `i` with the running
index `refillCounter mask i`, every read of the sorted lists is in range, and each
false-mask position receives the value found at the running index. -/
theorem refill_reads (mask : List Bool) (s1 s2 : List (valueWithIdx T)) (L : Nat)
    (hm : mask.length = L)
    (hs1 : refillCounter mask L ≤ s1.length) (hs2 : refillCounter mask L ≤ s2.length) :
    ∀ (n i : Nat) (ch : List T × List T),
      i + n = L → ch.1.length = L → ch.2.length = L →
      ∃ o1 o2, refill mask s1 s2 n i (refillCounter mask i) ch = some (o1, o2)
        ∧ o1.length = L ∧ o2.length = L
        ∧ (∀ k, k < i → o1[k]? = ch.1[k]? ∧ o2[k]? = ch.2[k]?)
        ∧ (∀ k, i ≤ k → mask[k]? = some false →
            refillCounter mask k < s1.length ∧ refillCounter mask k < s2.length
            ∧ o1[k]? = (s1[refillCounter mask k]?).map valueWithIdx.value
            ∧ o2[k]? = (s2[refillCounter mask k]?).map valueWithIdx.value) := by
  intro n
  induction n with
  | zero =>
    intro i ch hi hc0 hc1
    refine ⟨ch.1, ch.2, rfl, hc0, hc1, fun k _ => ⟨rfl, rfl⟩, ?_⟩
    intro k hk hmk
    have : k < mask.length := by
      by_contra hcon
      rw [List.getElem?_eq_none (by omega)] at hmk
      exact Option.noConfusion hmk
    omega
  | succ n ih =>
    intro i ch hi hc0 hc1
    have him : i < mask.length := by omega
    have hget : mask[i]? = some mask[i] := List.getElem?_eq_getElem him
    rw [refill, hget]
    cases hmi : mask[i] with
    | true =>
      rw [hmi] at hget
      simp only
      rw [← refillCounter_succ_of_true mask i hget]
      obtain ⟨o1, o2, he, hl0, hl1, hpre, hread⟩ := ih (i + 1) ch (by omega) hc0 hc1
      refine ⟨o1, o2, he, hl0, hl1, fun k hk => hpre k (by omega), ?_⟩
      intro k hk hmk
      by_cases hki : k = i
      · subst hki
        rw [hget] at hmk
        exact absurd hmk (by simp)
      · exact hread k (by omega) hmk
    | false =>
      rw [hmi] at hget
      have hstep := refillCounter_succ_of_false mask i hget
      have hmono := refillCounter_mono mask (i + 1) L (by omega)
      have hjs1 : refillCounter mask i < s1.length := by omega
      have hjs2 : refillCounter mask i < s2.length := by omega
      simp only [List.getElem?_eq_getElem hjs1, List.getElem?_eq_getElem hjs2, assignAt,
        hc0, hc1, show i < L by omega, if_true]
      rw [← hstep]
      obtain ⟨o1, o2, he, hl0, hl1, hpre, hread⟩ :=
        ih (i + 1) (ch.1.set i s1[refillCounter mask i].value,
          ch.2.set i s2[refillCounter mask i].value) (by omega)
          (by simpa using hc0) (by simpa using hc1)
      refine ⟨o1, o2, he, hl0, hl1, ?_, ?_⟩
      · intro k hk
        have := hpre k (by omega)
        simp only [List.getElem?_set_ne (show i ≠ k by omega)] at this
        exact this
      · intro k hk hmk
        by_cases hki : k = i
        · subst hki
          have := hpre k (by omega)
          simp only [List.getElem?_set_self (show k < ch.1.length by omega),
            List.getElem?_set_self (show k < ch.2.length by omega)] at this
          refine ⟨hjs1, hjs2, ?_, ?_⟩
          · rw [this.1, List.getElem?_eq_getElem hjs1]; rfl
          · rw [this.2, List.getElem?_eq_getElem hjs2]; rfl
        · exact hread k (by omega) hmk

/-- Claim C11. For equal-length parents and any mask, each of the two sorted
(value, index) lists has as many entries as the mask has false positions; `orderBased`
runs through, so no read of a sorted list is out of range: at every false-mask position
the running index `j` is below the length of both lists and the children receive the
values found there; and every index of the sorted lists is the running index at exactly
one false-mask position. -/
theorem orderBased_refill_in_range [DecidableEq T] [Inhabited T]
    (stdSort : List (valueWithIdx T) → List (valueWithIdx T)) (hsort : IsStdSort stdSort)
    (p1 p2 : List T) (mask : List Bool)
    (hlen : p1.length = p2.length) (hmask : mask.length = p1.length) :
    ∃ fp1 fp2 o1 o2,
      collectWithIndexes p1 p2 mask p1.length 0 ([], []) = some (fp1, fp2)
      ∧ (stdSort fp1).length = mask.countP (fun m => decide (m = false))
      ∧ (stdSort fp2).length = mask.countP (fun m => decide (m = false))
      ∧ orderBased stdSort p1 p2 mask = some (o1, o2)
      ∧ (∀ i : Nat, mask[i]? = some false →
          refillCounter mask i < (stdSort fp1).length
          ∧ refillCounter mask i < (stdSort fp2).length
          ∧ o1[i]? = ((stdSort fp1)[refillCounter mask i]?).map valueWithIdx.value
          ∧ o2[i]? = ((stdSort fp2)[refillCounter mask i]?).map valueWithIdx.value)
      ∧ (∀ j, j < mask.countP (fun m => decide (m = false)) →
          ∃! i : Nat, mask[i]? = some false ∧ refillCounter mask i = j) := by
  obtain ⟨c0, c1, hcopy, hc0, hc1, -, -⟩ :=
    copyFixed_spec p1 p2 mask p1.length rfl hlen.symm hmask p1.length 0
      (List.replicate p1.length default, List.replicate p1.length default)
      (by omega) (by simp) (by simp)
  have hcol := collectWithIndexes_spec p1 p2 mask p1.length rfl hlen.symm hmask
    p1.length 0 ([], []) (by omega)
  simp only [List.drop_zero, List.nil_append] at hcol
  have hfinal : refillCounter mask p1.length = mask.countP (fun m => decide (m = false)) := by
    rw [← hmask]; exact refillCounter_length mask
  have hs1 : (stdSort ((genesWhere false mask p1).map (fun a => ⟨a, findOffset a p2⟩))).length
      = mask.countP (fun m => decide (m = false)) := by
    rw [(hsort _).1.length_eq, List.length_map, genesWhere_length false mask p1 hmask]
  have hs2 : (stdSort ((genesWhere false mask p2).map (fun b => ⟨b, findOffset b p1⟩))).length
      = mask.countP (fun m => decide (m = false)) := by
    rw [(hsort _).1.length_eq, List.length_map, genesWhere_length false mask p2 (by omega)]
  obtain ⟨o1, o2, hre, -, -, -, hread⟩ :=
    refill_reads mask _ _ p1.length hmask (by rw [hfinal, hs1]) (by rw [hfinal, hs2])
      p1.length 0 (c0, c1) (by omega) hc0 hc1
  refine ⟨_, _, o1, o2, hcol, hs1, hs2, ?_, fun i hi => hread i (by omega) hi, ?_⟩
  · simp only [orderBased, hcopy, hcol]
    exact hre
  · intro j hj
    rw [← refillCounter_length mask] at hj
    obtain ⟨i, -, hmi, hri⟩ := refillCounter_surj mask mask.length j hj
    refine ⟨i, ⟨hmi, hri⟩, ?_⟩
    rintro k ⟨hmk, hrk⟩
    exact refillCounter_inj mask k i hmk hmi (hrk.trans hri.symm)

theorem orderBased_refill_in_range_witness :
    ∃ fp1 fp2 o1 o2,
      collectWithIndexes [7, 7, 2, 9] [5, 2, 2, 8] [false, true, false, false] 4 0 ([], [])
        = some (fp1, fp2)
      ∧ (insertionSortByIndex fp1).length
          = [false, true, false, false].countP (fun m => decide (m = false))
      ∧ (insertionSortByIndex fp2).length
          = [false, true, false, false].countP (fun m => decide (m = false))
      ∧ orderBased insertionSortByIndex [7, 7, 2, 9] [5, 2, 2, 8] [false, true, false, false]
          = some (o1, o2)
      ∧ (∀ i : Nat, [false, true, false, false][i]? = some false →
          refillCounter [false, true, false, false] i < (insertionSortByIndex fp1).length
          ∧ refillCounter [false, true, false, false] i < (insertionSortByIndex fp2).length
          ∧ o1[i]? = ((insertionSortByIndex fp1)[refillCounter [false, true, false, false] i]?).map
              valueWithIdx.value
          ∧ o2[i]? = ((insertionSortByIndex fp2)[refillCounter [false, true, false, false] i]?).map
              valueWithIdx.value)
      ∧ (∀ j, j < [false, true, false, false].countP (fun m => decide (m = false)) →
          ∃! i : Nat, [false, true, false, false][i]? = some false
            ∧ refillCounter [false, true, false, false] i = j) :=
  orderBased_refill_in_range insertionSortByIndex isStdSort_insertionSortByIndex
    [7, 7, 2, 9] [5, 2, 2, 8] [false, true, false, false] rfl rfl

end CrossoverMethod
